import Mathlib

/-!
Verification of the realtime audio adapter of the chefs-compass repository.

The development shallowly embeds the two source files:

* `src/services/geminiService.ts`: `encode` (a byte-to-base64 encoder built
  from `String.fromCharCode` and the browser builtin `btoa`), `decode`
  (the browser builtin `atob` followed by `charCodeAt`, i.e. the WHATWG
  forgiving-base64 decoder), `decodeAudioData` (an `Int16Array` view over
  the byte buffer, de-interleaved into per-channel float buffers by
  dividing each 16-bit sample by 32768), and the fallback handling of
  `getSuggestions`, `getFullRecipe` and `generateDishImage`.
* `src/App.tsx`: the playback scheduler kept in the refs `nextStartTime`
  and `activeSources` (`onAudio`, `onInterrupted`, `stopCoach`) and the
  microphone capture handler `onaudioprocess`.

Bytes are modelled as `Nat` below 256 (the content of a `Uint8Array`),
strings as `List Char`, and audio samples as `ℚ`.  Every float step of the
source that the claims touch (clamping, multiplying a float32 sample by
32767, dividing a 16-bit integer by 32768) is exact in double precision,
so the rational model computes the very numbers the JavaScript code does.
-/

namespace ChefsCompass

/-! ## Base64 codec (`encode` / `decode` of geminiService.ts)

`encode` builds a binary string whose char codes are the bytes and feeds
it to `btoa`; `decode` is `atob` followed by reading the char codes back.
Both are therefore functions between byte lists and char lists.  `btoa`
produces standard base64 with `=` padding; `atob` implements the WHATWG
forgiving-base64 decode: strip ASCII whitespace, strip up to two trailing
`=` when the length is a multiple of 4, fail when the remaining length is
1 mod 4 or a character is outside the 64-symbol alphabet, and otherwise
decode 6 bits per character (a final group of 2 or 3 characters yields 1
or 2 bytes, discarding the spare low bits). -/

/-- The 64-symbol base64 alphabet, in index order. -/
def alphaList : List Char :=
  "ABCDEFGHIJKLMNOPQRSTUVWXYZabcdefghijklmnopqrstuvwxyz0123456789+/".toList

/-- Character of the alphabet at a sextet value. -/
def alphaChar (n : Nat) : Char := alphaList.getD n 'A'

/-- Index of a character in the alphabet, `none` when it is not there. -/
def sextetOf (c : Char) : Option Nat := alphaList.findIdx? (fun d => d = c)

/-- One full 3-byte group of the encoder: four alphabet characters. -/
def encode3 (b1 b2 b3 : Nat) : List Char :=
  [alphaChar (b1 / 4), alphaChar (b1 % 4 * 16 + b2 / 16),
   alphaChar (b2 % 16 * 4 + b3 / 64), alphaChar (b3 % 64)]

/-- `encode` of geminiService.ts: bytes to base64 text with `=` padding
(the composition of the byte-to-binary-string loop with `btoa`). -/
def encode : List Nat → List Char
  | [] => []
  | [b1] => [alphaChar (b1 / 4), alphaChar (b1 % 4 * 16), '=', '=']
  | [b1, b2] =>
    [alphaChar (b1 / 4), alphaChar (b1 % 4 * 16 + b2 / 16),
     alphaChar (b2 % 16 * 4), '=']
  | b1 :: b2 :: b3 :: rest => encode3 b1 b2 b3 ++ encode rest

/-- ASCII whitespace, which forgiving-base64 removes before decoding. -/
def isB64Ws (c : Char) : Bool :=
  c = ' ' || c = '\t' || c = '\n' || c = '\x0c' || c = '\r'

/-- Step 1 of forgiving-base64: remove all ASCII whitespace. -/
def stripWs (s : List Char) : List Char := s.filter (fun c => ! isB64Ws c)

/-- Drop one leading `=` if present. -/
def dropEq1 : List Char → List Char
  | [] => []
  | c :: cs => if c = '=' then cs else c :: cs

/-- Drop up to two leading `=` (applied to the reversed input, this is the
trailing-padding strip of forgiving-base64). -/
def stripPadRev (s : List Char) : List Char := dropEq1 (dropEq1 s)

/-- Step 2 of forgiving-base64: when the length is a multiple of 4, remove
up to two trailing `=`. -/
def dropPad (s : List Char) : List Char :=
  if s.length % 4 = 0 then (stripPadRev s.reverse).reverse else s

/-- Translate every character to its sextet value, failing on a character
outside the alphabet. -/
def sextetsOf : List Char → Option (List Nat)
  | [] => some []
  | c :: cs =>
    match sextetOf c, sextetsOf cs with
    | some n, some ns => some (n :: ns)
    | _, _ => none

/-- Recombine sextets into bytes, 4 sextets to 3 bytes; a trailing group
of 2 or 3 sextets yields 1 or 2 bytes (spare low bits discarded); a
trailing single sextet cannot occur after the length check. -/
def decodeSextets : List Nat → Option (List Nat)
  | [] => some []
  | [_] => none
  | [c1, c2] => some [c1 * 4 + c2 / 16]
  | [c1, c2, c3] => some [c1 * 4 + c2 / 16, c2 % 16 * 16 + c3 / 4]
  | c1 :: c2 :: c3 :: c4 :: rest =>
    (decodeSextets rest).map
      (fun bs => (c1 * 4 + c2 / 16) :: (c2 % 16 * 16 + c3 / 4) :: (c3 % 4 * 64 + c4) :: bs)

/-- `decode` of geminiService.ts: the browser `atob` (WHATWG
forgiving-base64 decode) followed by reading the char codes back into a
byte array.  Failure (`atob` throwing `InvalidCharacterError`) is `none`. -/
def decode (s : List Char) : Option (List Nat) :=
  if (dropPad (stripWs s)).length % 4 = 1 then none
  else (sextetsOf (dropPad (stripWs s))).bind decodeSextets

/-- The encoder without its `=` padding: exactly what `dropPad ∘ stripWs`
leaves of `encode`.  Proof helper, not a source function. -/
def encodeNoPad : List Nat → List Char
  | [] => []
  | [b1] => [alphaChar (b1 / 4), alphaChar (b1 % 4 * 16)]
  | [b1, b2] =>
    [alphaChar (b1 / 4), alphaChar (b1 % 4 * 16 + b2 / 16),
     alphaChar (b2 % 16 * 4)]
  | b1 :: b2 :: b3 :: rest => encode3 b1 b2 b3 ++ encodeNoPad rest

/-- Induction along the 3-byte grouping used by the encoder. -/
theorem threeStep {P : List Nat → Prop} (h0 : P []) (h1 : ∀ b, P [b])
    (h2 : ∀ b c, P [b, c])
    (h3 : ∀ b c d rest, P rest → P (b :: c :: d :: rest)) :
    ∀ B, P B
  | [] => h0
  | [b] => h1 b
  | [b, c] => h2 b c
  | b :: c :: d :: rest => h3 b c d rest (threeStep h0 h1 h2 h3 rest)

theorem alphaChar_mem (n : Nat) : alphaChar n ∈ alphaList := by
  by_cases h : n < alphaList.length
  · rw [alphaChar, List.getD_eq_getElem _ _ h]
    exact List.getElem_mem h
  · rw [alphaChar, List.getD_eq_default _ _ (Nat.le_of_not_lt h)]
    decide

theorem sextetOf_alpha_fin : ∀ i : Fin 64, sextetOf (alphaChar i.val) = some i.val := by
  decide

theorem sextetOf_alpha {n : Nat} (h : n < 64) : sextetOf (alphaChar n) = some n :=
  sextetOf_alpha_fin ⟨n, h⟩

theorem alphaChar_ne_pad (n : Nat) : alphaChar n ≠ '=' := by
  have hmem := alphaChar_mem n
  intro h
  rw [h] at hmem
  revert hmem
  decide

theorem alphaChar_not_ws (n : Nat) : isB64Ws (alphaChar n) = false := by
  have hmem := alphaChar_mem n
  have hall : ∀ c ∈ alphaList, isB64Ws c = false := by decide
  exact hall _ hmem

theorem encode_not_ws (B : List Nat) : ∀ c ∈ encode B, isB64Ws c = false := by
  induction B using threeStep with
  | h0 => intro c hc; simp [encode] at hc
  | h1 b =>
    intro c hc
    simp only [encode, List.mem_cons, List.not_mem_nil, or_false] at hc
    rcases hc with rfl | rfl | rfl | rfl <;> first | exact alphaChar_not_ws _ | rfl
  | h2 b b' =>
    intro c hc
    simp only [encode, List.mem_cons, List.not_mem_nil, or_false] at hc
    rcases hc with rfl | rfl | rfl | rfl <;> first | exact alphaChar_not_ws _ | rfl
  | h3 b c' d rest ih =>
    intro c hc
    rw [encode] at hc
    rcases List.mem_append.mp hc with h | h
    · simp only [encode3, List.mem_cons, List.not_mem_nil, or_false] at h
      rcases h with rfl | rfl | rfl | rfl <;> exact alphaChar_not_ws _
    · exact ih c h

theorem stripWs_encode (B : List Nat) : stripWs (encode B) = encode B := by
  apply List.filter_eq_self.mpr
  intro c hc
  rw [encode_not_ws B c hc]
  rfl

theorem encode_length_mod (B : List Nat) : (encode B).length % 4 = 0 := by
  induction B using threeStep with
  | h0 => simp [encode]
  | h1 b => simp [encode]
  | h2 b c => simp [encode]
  | h3 b c d rest ih => simp [encode, encode3]; omega

theorem encodeNoPad_length_mod (B : List Nat) : (encodeNoPad B).length % 4 ≠ 1 := by
  induction B using threeStep with
  | h0 => simp [encodeNoPad]
  | h1 b => simp [encodeNoPad]
  | h2 b c => simp [encodeNoPad]
  | h3 b c d rest ih => simp [encodeNoPad, encode3] at *; omega

theorem dropPad_append4 (c4 X : List Char) (h4 : c4.length = 4)
    (hX : X.length % 4 = 0) (hne : X ≠ []) :
    dropPad (c4 ++ X) = c4 ++ dropPad X := by
  have hlen : (c4 ++ X).length % 4 = 0 := by rw [List.length_append, h4]; omega
  have hX2 : 2 ≤ X.length := by
    rcases X with _ | ⟨x, xs⟩
    · exact absurd rfl hne
    · simp only [List.length_cons] at hX ⊢
      omega
  have hrev2 : 2 ≤ X.reverse.length := by simpa using hX2
  rcases hr : X.reverse with _ | ⟨x1, t⟩
  · rw [hr] at hrev2; simp at hrev2
  rcases ht : t with _ | ⟨x2, xs⟩
  · rw [hr, ht] at hrev2; simp at hrev2
  subst ht
  rw [dropPad, if_pos hlen, dropPad, if_pos hX, List.reverse_append, hr]
  by_cases h1 : x1 = '='
  · by_cases h2 : x2 = '='
    · subst h1; subst h2
      simp [stripPadRev, dropEq1]
    · subst h1
      simp [stripPadRev, dropEq1, h2]
  · simp [stripPadRev, dropEq1, h1]

theorem dropPad_encode (B : List Nat) : dropPad (encode B) = encodeNoPad B := by
  induction B using threeStep with
  | h0 => simp [encode, encodeNoPad, dropPad, stripPadRev, dropEq1]
  | h1 b =>
    show dropPad [alphaChar (b / 4), alphaChar (b % 4 * 16), '=', '='] = _
    rw [dropPad]
    simp [stripPadRev, dropEq1, encodeNoPad]
  | h2 b c =>
    show dropPad [alphaChar (b / 4), alphaChar (b % 4 * 16 + c / 16),
                  alphaChar (c % 16 * 4), '='] = _
    rw [dropPad]
    simp [stripPadRev, dropEq1, alphaChar_ne_pad, encodeNoPad]
  | h3 b c d rest ih =>
    show dropPad (encode3 b c d ++ encode rest) = encode3 b c d ++ encodeNoPad rest
    by_cases hrest : rest = []
    · subst hrest
      show dropPad (encode3 b c d ++ []) = encode3 b c d ++ []
      rw [List.append_nil]
      rw [dropPad, if_pos (by simp [encode3])]
      simp [encode3, stripPadRev, dropEq1, alphaChar_ne_pad]
    · have hne : encode rest ≠ [] := by
        rcases rest with _ | ⟨r1, rs⟩
        · exact absurd rfl hrest
        · rcases rs with _ | ⟨r2, rs2⟩
          · simp [encode]
          · rcases rs2 with _ | ⟨r3, rs3⟩
            · simp [encode]
            · simp [encode, encode3]
      rw [dropPad_append4 _ _ (by simp [encode3]) (encode_length_mod rest) hne]
      rw [ih]

theorem sextetsOf_cons {c : Char} {n : Nat} {cs : List Char} {ns : List Nat}
    (hc : sextetOf c = some n) (hcs : sextetsOf cs = some ns) :
    sextetsOf (c :: cs) = some (n :: ns) := by
  simp [sextetsOf, hc, hcs]

theorem decode_encodeNoPad (B : List Nat) (hB : ∀ b ∈ B, b < 256) :
    (sextetsOf (encodeNoPad B)).bind decodeSextets = some B := by
  induction B using threeStep with
  | h0 => decide
  | h1 b =>
    have hb := hB b (by simp)
    rw [encodeNoPad]
    rw [sextetsOf_cons (sextetOf_alpha (by omega))
        (sextetsOf_cons (sextetOf_alpha (by omega)) (rfl : sextetsOf [] = some []))]
    simp only [decodeSextets, Option.some_bind, Option.some.injEq, List.cons.injEq, and_true]
    omega
  | h2 b c =>
    have hb := hB b (by simp)
    have hc := hB c (by simp)
    rw [encodeNoPad]
    rw [sextetsOf_cons (sextetOf_alpha (by omega))
        (sextetsOf_cons (sextetOf_alpha (by omega))
          (sextetsOf_cons (sextetOf_alpha (by omega)) (rfl : sextetsOf [] = some [])))]
    simp only [decodeSextets, Option.some_bind, Option.some.injEq, List.cons.injEq, and_true]
    omega
  | h3 b c d rest ih =>
    have hb := hB b (by simp)
    have hc := hB c (by simp)
    have hd := hB d (by simp)
    have ih' := ih (fun x hx => hB x (by simp [hx]))
    rcases hsx : sextetsOf (encodeNoPad rest) with _ | v
    · rw [hsx] at ih'; simp at ih'
    rw [hsx] at ih'
    simp only [Option.some_bind] at ih'
    rw [encodeNoPad, encode3]
    simp only [List.cons_append, List.nil_append]
    rw [sextetsOf_cons (sextetOf_alpha (by omega))
        (sextetsOf_cons (sextetOf_alpha (by omega))
          (sextetsOf_cons (sextetOf_alpha (by omega))
            (sextetsOf_cons (sextetOf_alpha (by omega)) hsx)))]
    simp only [Option.some_bind]
    simp only [decodeSextets, ih', Option.map_some', Option.some.injEq, List.cons.injEq,
      and_true]
    omega

theorem mem_dropEq1 {c : Char} {l : List Char} (hne : c ≠ '=') (hc : c ∈ l) :
    c ∈ dropEq1 l := by
  rcases l with _ | ⟨x, xs⟩
  · exact hc
  · rw [dropEq1]
    by_cases hx : x = '='
    · rw [if_pos hx]
      rcases List.mem_cons.mp hc with h | h
      · exact absurd (h.trans hx) hne
      · exact h
    · rw [if_neg hx]
      exact hc

theorem mem_dropPad {c : Char} {s : List Char} (hne : c ≠ '=') (hc : c ∈ s) :
    c ∈ dropPad s := by
  rw [dropPad]
  by_cases h : s.length % 4 = 0
  · rw [if_pos h, List.mem_reverse]
    exact mem_dropEq1 hne (mem_dropEq1 hne (List.mem_reverse.mpr hc))
  · rw [if_neg h]
    exact hc

theorem sextetsOf_none {c : Char} {l : List Char} (hc : c ∈ l)
    (hbad : sextetOf c = none) : sextetsOf l = none := by
  induction l with
  | nil => simp at hc
  | cons x xs ih =>
    rcases List.mem_cons.mp hc with h | h
    · subst h
      simp [sextetsOf, hbad]
    · rw [sextetsOf, ih h]
      rcases sextetOf x with _ | n <;> rfl

/-- C1: base64 round-trip — for every byte sequence `B` (entries below
256, as in a `Uint8Array`), `decode (encode B) = some B`: encoding then
decoding reproduces the exact original bytes. -/
theorem decode_encode_roundtrip (B : List Nat) (hB : ∀ b ∈ B, b < 256) :
    decode (encode B) = some B := by
  rw [decode, stripWs_encode, dropPad_encode]
  rw [if_neg (encodeNoPad_length_mod B)]
  exact decode_encodeNoPad B hB

/-- Witness for C1 at the concrete byte sequence `[72, 101, 108, 108, 111]`. -/
theorem decode_encode_roundtrip_witness :
    (∀ b ∈ [72, 101, 108, 108, 111], b < 256) ∧
      decode (encode [72, 101, 108, 108, 111]) = some [72, 101, 108, 108, 111] :=
  ⟨by decide, decode_encode_roundtrip [72, 101, 108, 108, 111] (by decide)⟩

/-- C7 counterexample: the input `"AA"` has length 2, not a multiple of 4,
yet `decode` succeeds on it (forgiving base64 accepts lengths of 2 or 3
mod 4), so the claim that every such input fails is false. -/
theorem decode_short_input_succeeds :
    ['A', 'A'].length % 4 ≠ 0 ∧ decode ['A', 'A'] = some [0] := by
  constructor
  · decide
  · decide

/-- C7 amended: on whitespace-free input, `decode` fails whenever the
length is 1 mod 4 (in particular on any string of length 5), and whenever
some character other than `=` is outside the 64-symbol alphabet. -/
theorem decode_malformed (s : List Char) (hws : (s.all fun c => ! isB64Ws c) = true) :
    (s.length % 4 = 1 → decode s = none) ∧
      (∀ c ∈ s, c ≠ '=' → sextetOf c = none → decode s = none) := by
  have hstrip : stripWs s = s := by
    apply List.filter_eq_self.mpr
    intro c hc
    exact (List.all_eq_true.mp hws) c hc
  constructor
  · intro hlen
    have hpad : dropPad s = s := by
      rw [dropPad, if_neg (by omega)]
    rw [decode, hstrip, hpad, if_pos hlen]
  · intro c hc hne hbad
    rw [decode, hstrip]
    by_cases hlen : (dropPad s).length % 4 = 1
    · rw [if_pos hlen]
    · rw [if_neg hlen]
      rw [sextetsOf_none (mem_dropPad hne hc) hbad]
      rfl

/-- Witness for C7 amended at the concrete length-5 input `"AAAAA"`. -/
theorem decode_malformed_witness :
    ((['A', 'A', 'A', 'A', 'A'].all fun c => ! isB64Ws c) = true) ∧
      decode ['A', 'A', 'A', 'A', 'A'] = none :=
  ⟨by decide, (decode_malformed ['A', 'A', 'A', 'A', 'A'] (by decide)).1 (by decide)⟩

/-! ## Capture pipeline (`onaudioprocess` of App.tsx) and playback decode
(`decodeAudioData` of geminiService.ts)

The capture handler clamps each float sample to `[-1, 1]`, multiplies by
32767 and stores the result into an `Int16Array`; the JavaScript store
conversion (`ToInt16`) truncates toward zero.  Both steps are exact in
binary floating point for float32 samples, so samples are modelled as `ℚ`.
The `Int16Array` buffer is viewed as bytes in little-endian order.

`decodeAudioData` views the byte buffer as an `Int16Array` (throwing a
`RangeError` when the byte length is odd), computes
`frameCount = dataInt16.length / numChannels`, calls
`ctx.createBuffer(numChannels, frameCount, sampleRate)`, and fills one
float buffer per channel with
`dataInt16[i * numChannels + channel] / 32768`.  With a non-integral
`frameCount` the `createBuffer` length argument is truncated (WebIDL
`unsigned long` conversion) and the loop's final out-of-bounds write is
silently dropped, so the effective frame count is the floor; when that
truncated frame count is zero (an empty buffer, or a byte length below
`2 * numChannels`), `createBuffer` throws `NotSupportedError`.  Both
throwing paths are `none`. -/

/-- Clamp of the capture handler: `Math.max(-1, Math.min(1, x))`. -/
def clamp (x : ℚ) : ℚ := max (-1) (min 1 x)

/-- Truncation toward zero, the JavaScript `ToInt16` integer conversion
(for values already within the 16-bit range). -/
def truncQ (q : ℚ) : Int := if 0 ≤ q then ⌊q⌋ else ⌈q⌉

/-- The stored 16-bit value of one captured sample. -/
def quantize (x : ℚ) : Int := truncQ (clamp x * 32767)

/-- Little-endian two-byte (two's complement) layout of a 16-bit value. -/
def toLEBytes (v : Int) : List Nat :=
  [(v % 65536).toNat % 256, (v % 65536).toNat / 256]

/-- `onaudioprocess` of App.tsx: the byte buffer sent for one captured
float block. -/
def onaudioprocess (samples : List ℚ) : List Nat :=
  (samples.map (fun x => toLEBytes (quantize x))).flatten

/-- The 16-bit signed sample at index `k` of the little-endian byte
buffer (the `Int16Array` view). -/
def int16At (data : List Nat) (k : Nat) : Int :=
  if data.getD (2 * k) 0 + 256 * data.getD (2 * k + 1) 0 < 32768 then
    (data.getD (2 * k) 0 + 256 * data.getD (2 * k + 1) 0 : Int)
  else (data.getD (2 * k) 0 + 256 * data.getD (2 * k + 1) 0 : Int) - 65536

/-- `decodeAudioData` of geminiService.ts: per-channel float buffers from
an interleaved 16-bit little-endian byte buffer.  `none` models the
`RangeError` the `Int16Array` constructor throws on an odd byte length,
and the `NotSupportedError` that `ctx.createBuffer` throws when the
truncated frame count is zero. -/
def decodeAudioData (data : List Nat) (numChannels : Nat) : Option (List (List ℚ)) :=
  if data.length % 2 = 0 then
    if data.length / 2 / numChannels = 0 then none
    else
      some ((List.range numChannels).map (fun ch =>
        (List.range (data.length / 2 / numChannels)).map (fun i =>
          (int16At data (i * numChannels + ch) : ℚ) / 32768)))
  else none

theorem clamp_lb (x : ℚ) : -1 ≤ clamp x := le_max_left _ _

theorem clamp_ub (x : ℚ) : clamp x ≤ 1 :=
  max_le (by norm_num) (min_le_left _ _)

theorem clamp_eq {x : ℚ} (h1 : -1 ≤ x) (h2 : x ≤ 1) : clamp x = x := by
  rw [clamp, min_eq_right h2, max_eq_right h1]

theorem quantize_lb (x : ℚ) : -32767 ≤ quantize x := by
  have hy : (-32767 : ℚ) ≤ clamp x * 32767 := by
    have := clamp_lb x
    nlinarith
  rw [quantize, truncQ]
  split_ifs with h
  · have hf := Int.floor_le (clamp x * 32767)
    have : (0 : Int) ≤ ⌊clamp x * 32767⌋ := Int.floor_nonneg.mpr h
    omega
  · have hc := Int.le_ceil (clamp x * 32767)
    have : (-32767 : ℚ) ≤ (⌈clamp x * 32767⌉ : ℚ) := le_trans hy hc
    exact_mod_cast this

theorem quantize_ub (x : ℚ) : quantize x ≤ 32767 := by
  have hy : clamp x * 32767 ≤ 32767 := by
    have := clamp_ub x
    nlinarith
  rw [quantize, truncQ]
  split_ifs with h
  · have hf := Int.floor_le (clamp x * 32767)
    have : (⌊clamp x * 32767⌋ : ℚ) ≤ 32767 := le_trans hf hy
    exact_mod_cast this
  · have : ⌈clamp x * 32767⌉ ≤ 0 := Int.ceil_le.mpr (by push_cast; linarith [lt_of_not_le h])
    omega

theorem quantize_zero : quantize 0 = 0 := by
  have h : clamp 0 = 0 := clamp_eq (by norm_num) (by norm_num)
  rw [quantize, h]
  norm_num [truncQ]

theorem int16At_toLEBytes (v : Int) (hlo : -32768 ≤ v) (hhi : v < 32768) :
    int16At (toLEBytes v) 0 = v := by
  have h0 : (toLEBytes v).getD (2 * 0) 0 = (v % 65536).toNat % 256 := rfl
  have h1 : (toLEBytes v).getD (2 * 0 + 1) 0 = (v % 65536).toNat / 256 := rfl
  rw [int16At, h0, h1]
  split_ifs with h <;> omega

theorem onaudioprocess_cons (x : ℚ) (xs : List ℚ) :
    onaudioprocess (x :: xs) = toLEBytes (quantize x) ++ onaudioprocess xs := rfl

theorem onaudioprocess_length (samples : List ℚ) :
    (onaudioprocess samples).length = 2 * samples.length := by
  induction samples with
  | nil => rfl
  | cons x xs ih =>
    rw [onaudioprocess_cons, List.length_append, ih]
    show 2 + 2 * xs.length = 2 * (x :: xs).length
    rw [List.length_cons]
    omega

theorem onaudioprocess_zeros (n : Nat) :
    onaudioprocess (List.replicate n 0) = List.replicate (2 * n) 0 := by
  induction n with
  | zero => rfl
  | succ m ih =>
    have h2 : 2 * (m + 1) = 2 * m + 1 + 1 := by omega
    rw [List.replicate_succ, onaudioprocess_cons, ih, quantize_zero]
    rw [h2, List.replicate_succ, List.replicate_succ]
    rfl

theorem encode_length (B : List Nat) : (encode B).length = (B.length + 2) / 3 * 4 := by
  induction B using threeStep with
  | h0 => rfl
  | h1 b => simp [encode]
  | h2 b c => simp [encode]
  | h3 b c d rest ih =>
    show (encode3 b c d ++ encode rest).length = _
    rw [List.length_append, ih]
    show 4 + _ = _
    simp only [List.length_cons]
    omega

/-- C4 counterexample: at the in-range sample 1/2 the code stores
`trunc(16383.5) = 16383` (the `Int16Array` store truncates toward zero),
not `round(16383.5) = 16384`, so the claimed conversion rule
`round(clamp(x) * 32767)` is false. -/
theorem quantize_is_not_round :
    quantize (1 / 2) = 16383 ∧ round (clamp (1 / 2) * 32767) = 16384 := by
  have hc : clamp (1 / 2 : ℚ) = 1 / 2 := clamp_eq (by norm_num) (by norm_num)
  constructor
  · rw [quantize, hc, truncQ, if_pos (by norm_num)]
    norm_num
  · rw [hc, round_eq]
    norm_num

/-- C4 amended: each captured sample is clamped to `[-1, 1]` and converted
to 16 bits by truncation toward zero of `clamp(x) * 32767` (magnitude
`⌊|clamp(x) * 32767|⌋`, always within `[-32767, 32767]`), then packed into
a contiguous little-endian byte buffer of twice the sample count; a
4096-sample all-zero block yields an 8192-byte all-zero buffer whose
base64 encoding has exactly `ceil(8192 / 3) * 4 = 10924` characters. -/
theorem capture_block_spec (samples : List ℚ) :
    (onaudioprocess samples).length = 2 * samples.length ∧
      (∀ x : ℚ, |quantize x| = ⌊|clamp x * 32767|⌋) ∧
      (∀ x : ℚ, -32767 ≤ quantize x ∧ quantize x ≤ 32767) ∧
      onaudioprocess (List.replicate 4096 0) = List.replicate 8192 0 ∧
      (encode (onaudioprocess (List.replicate 4096 0))).length = (8192 + 2) / 3 * 4 := by
  have hzeros : onaudioprocess (List.replicate 4096 0) = List.replicate 8192 0 := by
    have := onaudioprocess_zeros 4096
    norm_num at this
    exact this
  refine ⟨onaudioprocess_length samples, ?_, fun x => ⟨quantize_lb x, quantize_ub x⟩,
    hzeros, ?_⟩
  · intro x
    rw [quantize, truncQ]
    split_ifs with h
    · rw [abs_of_nonneg h]
      exact abs_of_nonneg (Int.floor_nonneg.mpr h)
    · have hlt := lt_of_not_le h
      rw [abs_of_neg hlt, Int.floor_neg]
      have hle : ⌈clamp x * 32767⌉ ≤ 0 := Int.ceil_le.mpr (by push_cast; linarith)
      exact abs_of_nonpos hle
  · rw [hzeros, encode_length]
    norm_num

theorem toLEBytes_length (v : Int) : (toLEBytes v).length = 2 := rfl

theorem decode_capture_single (x : ℚ) :
    decodeAudioData (onaudioprocess [x]) 1 = some [[(quantize x : ℚ) / 32768]] := by
  have hq1 := quantize_lb x
  have hq2 := quantize_ub x
  have hbytes : onaudioprocess [x] = toLEBytes (quantize x) := by
    rw [onaudioprocess_cons]
    show _ ++ [] = _
    rw [List.append_nil]
  rw [hbytes, decodeAudioData, if_pos (by rw [toLEBytes_length])]
  rw [toLEBytes_length]
  rw [if_neg (by norm_num)]
  have h16 := int16At_toLEBytes (quantize x) (by omega) (by omega)
  have hr : List.range 1 = [0] := rfl
  simp [hr, h16]

/-- C5 counterexample: the float32-representable in-range sample
`16777215 / 16777216` quantizes to 32766 and is reconstructed by the
playback decode as `32766 / 32768`, an error of `1023 / 16777216`, which
exceeds one quantization step `1 / 32768 = 512 / 16777216` — so the claimed
bound `|reconstructed - original| ≤ 1/32768` is false. -/
theorem pcm_roundtrip_exceeds_one_step :
    decodeAudioData (onaudioprocess [(16777215 : ℚ) / 16777216]) 1 =
        some [[(32766 : ℚ) / 32768]] ∧
      1 / 32768 < |(32766 : ℚ) / 32768 - (16777215 : ℚ) / 16777216| := by
  have hq : quantize ((16777215 : ℚ) / 16777216) = 32766 := by
    have hc : clamp ((16777215 : ℚ) / 16777216) = (16777215 : ℚ) / 16777216 :=
      clamp_eq (by norm_num) (by norm_num)
    rw [quantize, hc, truncQ, if_pos (by norm_num)]
    norm_num
  constructor
  · rw [decode_capture_single, hq]
    norm_num
  · rw [abs_of_neg (by norm_num)]
    norm_num

/-- C5 amended: for every in-range sample, the capture quantization
followed by the playback decode reconstructs the sample within two
quantization steps — `|reconstructed - original| < 2/32768` — and this is
the tight bound (one step is exceeded near ±1, see the counterexample). -/
theorem pcm_roundtrip_within_two_steps (x : ℚ) (h1 : -1 ≤ x) (h2 : x ≤ 1) :
    decodeAudioData (onaudioprocess [x]) 1 = some [[(quantize x : ℚ) / 32768]] ∧
      |(quantize x : ℚ) / 32768 - x| < 2 / 32768 := by
  refine ⟨decode_capture_single x, ?_⟩
  have hc : clamp x = x := clamp_eq h1 h2
  rw [quantize, hc, truncQ]
  split_ifs with h
  · have hf1 := Int.floor_le (x * 32767)
    have hf2 := Int.lt_floor_add_one (x * 32767)
    rw [abs_lt]
    constructor <;> linarith
  · have hc1 := Int.le_ceil (x * 32767)
    have hc2 := Int.ceil_lt_add_one (x * 32767)
    have hx0 : x < 0 := by
      have := lt_of_not_le h
      nlinarith
    rw [abs_lt]
    constructor <;> linarith

/-- Witness for C5 amended at the concrete in-range sample 1/2. -/
theorem pcm_roundtrip_within_two_steps_witness :
    decodeAudioData (onaudioprocess [(1 : ℚ) / 2]) 1 =
        some [[(quantize ((1 : ℚ) / 2) : ℚ) / 32768]] ∧
      |(quantize ((1 : ℚ) / 2) : ℚ) / 32768 - 1 / 2| < 2 / 32768 :=
  pcm_roundtrip_within_two_steps (1 / 2) (by norm_num) (by norm_num)

theorem getD_map_range {α : Type} (n : Nat) (f : Nat → α) (d : α) (i : Nat) (h : i < n) :
    ((List.range n).map f).getD i d = f i := by
  rw [List.getD_eq_getElem _ _ (by simpa using h)]
  simp

/-- C8 counterexample: a 6-byte buffer with 2 channels has a byte length
that is not divisible by `2 * channelCount = 4`, yet `decodeAudioData`
succeeds (the fractional frame count is truncated, no error is raised) —
so the claimed failure on all such inputs is false. -/
theorem decodeAudioData_uneven_succeeds :
    [0, 0, 0, 0, 0, 0].length % (2 * 2) ≠ 0 ∧
      decodeAudioData [0, 0, 0, 0, 0, 0] 2 = some [[0], [0]] := by
  constructor
  · decide
  · rw [decodeAudioData]
    norm_num
    have hr : List.range 2 = [0, 1] := rfl
    have h0 : int16At [0, 0, 0, 0, 0, 0] 0 = 0 := rfl
    have h1 : int16At [0, 0, 0, 0, 0, 0] 1 = 0 := rfl
    simp [hr, List.range_succ, h0, h1]

/-- C8 amended: `decodeAudioData` fails exactly when the byte length is
odd (the `Int16Array` view throws) or the truncated frame count
`byteLength / 2 / channelCount` is zero (`ctx.createBuffer` rejects a
zero length) — in particular a 3-byte buffer with 1 channel fails — and
for a byte length divisible by `2 * channelCount` with a nonzero frame
count it succeeds, preserving frame order and channel interleaving
exactly with `frameCount = byteLength / 2 / channelCount`: channel `c`,
frame `i` holds sample `i * channelCount + c` of the interleaved 16-bit
data, divided by 32768. -/
theorem decodeAudioData_framing (data : List Nat) (ch : Nat) (hch : 1 ≤ ch) :
    (data.length % 2 = 1 → decodeAudioData data ch = none) ∧
      (data.length / 2 / ch = 0 → decodeAudioData data ch = none) ∧
      (data.length % (2 * ch) = 0 → data.length / 2 / ch ≠ 0 →
        ∃ chans : List (List ℚ), decodeAudioData data ch = some chans ∧
          chans.length = ch ∧
          (∀ c, c < ch → (chans.getD c []).length = data.length / 2 / ch) ∧
          (∀ c, c < ch → ∀ i, i < data.length / 2 / ch →
            (chans.getD c []).getD i 0 = (int16At data (i * ch + c) : ℚ) / 32768)) := by
  refine ⟨?_, ?_, ?_⟩
  · intro hodd
    rw [decodeAudioData, if_neg (by omega)]
  · intro hzero
    rw [decodeAudioData]
    by_cases h2 : data.length % 2 = 0
    · rw [if_pos h2, if_pos hzero]
    · rw [if_neg h2]
  · intro hdvd hnz
    have h2 : data.length % 2 = 0 := by
      have hd : (2 * ch) ∣ data.length := Nat.dvd_of_mod_eq_zero hdvd
      have h2d : (2 : Nat) ∣ data.length := dvd_trans (Dvd.intro ch rfl) hd
      omega
    refine ⟨(List.range ch).map (fun c => (List.range (data.length / 2 / ch)).map
        (fun i => (int16At data (i * ch + c) : ℚ) / 32768)), ?_, ?_, ?_, ?_⟩
    · rw [decodeAudioData, if_pos h2, if_neg hnz]
    · simp
    · intro c hc
      rw [getD_map_range _ _ _ _ hc]
      simp
    · intro c hc i hi
      rw [getD_map_range _ _ _ _ hc, getD_map_range _ _ _ _ hi]

/-- Witness for C8 amended: the 3-byte buffer with 1 channel fails, and
so does the 2-byte buffer with 2 channels (truncated frame count zero). -/
theorem decodeAudioData_framing_witness :
    decodeAudioData [0, 0, 0] 1 = none ∧ decodeAudioData [0, 0] 2 = none :=
  ⟨(decodeAudioData_framing [0, 0, 0] 1 (by norm_num)).1 (by norm_num),
    (decodeAudioData_framing [0, 0] 2 (by norm_num)).2.1 (by norm_num)⟩

/-! ## Playback scheduler and session lifecycle (App.tsx)

The scheduler state of `App.tsx` is the ref `nextStartTime` (the playback
cursor, seconds on the output `AudioContext` clock), the ref
`activeSources` (the set of started `AudioBufferSourceNode`s), and the
session promise.  `onAudio` is the inbound audio-chunk handler: it is a
no-op when no output context exists; otherwise it raises the cursor to
`max(cursor, clock.now())`, starts the decoded chunk at that cursor,
advances the cursor by the chunk duration, and adds the source to the set
(with an `onended` callback removing it).  `onInterrupted` stops every
active source, clears the set and zeroes the cursor.  `stopCoach` closes
the session, stops every active source and clears the set, leaving the
cursor untouched.  Times and durations are modelled as `ℚ`; calling
`stop()` on a source is modelled by setting its `stopped` flag in the
returned list of affected sources. -/

/-- One `AudioBufferSourceNode` started by the scheduler. -/
structure Source where
  id : Nat
  stopped : Bool
deriving DecidableEq

/-- The mutable refs of App.tsx that the audio session uses. -/
structure CoachState where
  nextStartTime : ℚ
  activeSources : List Source
  nextId : Nat
  ctxReady : Bool
  sessionOpen : Bool
deriving DecidableEq

/-- The `onAudio` callback for one inbound chunk: `now` is
`audioContextOut.currentTime` at entry and `dur` is `buffer.duration`.
Returns the new state and the start time passed to `source.start`
(`none` when the handler returned early for lack of an output context). -/
def onAudio (now dur : ℚ) (st : CoachState) : CoachState × Option ℚ :=
  if st.ctxReady then
    ({ st with
        nextStartTime := max st.nextStartTime now + dur,
        activeSources := st.activeSources ++ [⟨st.nextId, false⟩],
        nextId := st.nextId + 1 },
      some (max st.nextStartTime now))
  else (st, none)

/-- The `onended` callback of a scheduled source: natural end of life
removes it from the active set. -/
def onEnded (sid : Nat) (st : CoachState) : CoachState :=
  { st with activeSources := st.activeSources.filter (fun s => s.id ≠ sid) }

/-- The `onInterrupted` callback: stop every active source, clear the
set, zero the cursor.  Returns the new state and the stopped sources. -/
def onInterrupted (st : CoachState) : CoachState × List Source :=
  ({ st with nextStartTime := 0, activeSources := [] },
    st.activeSources.map (fun s => { s with stopped := true }))

/-- `stopCoach` of App.tsx: close the session, stop every active source,
clear the set.  The cursor is not touched.  Returns the new state and the
stopped sources. -/
def stopCoach (st : CoachState) : CoachState × List Source :=
  ({ st with sessionOpen := false, activeSources := [] },
    st.activeSources.map (fun s => { s with stopped := true }))

/-- An inbound scheduler event: an audio chunk (with the clock reading at
arrival and the chunk duration) or an interruption signal. -/
inductive SchedEv where
  | audio (now dur : ℚ)
  | intr
deriving DecidableEq

/-- State transition of one inbound event. -/
def stepEv (st : CoachState) (e : SchedEv) : CoachState :=
  match e with
  | .audio now dur => (onAudio now dur st).1
  | .intr => (onInterrupted st).1

/-- Event is an audio chunk with a nonnegative duration. -/
def nonnegAudio : SchedEv → Bool
  | .audio _ dur => decide (0 ≤ dur)
  | .intr => false

theorem stepEv_mono (st : CoachState) (e : SchedEv) (he : nonnegAudio e = true) :
    st.nextStartTime ≤ (stepEv st e).nextStartTime := by
  cases e with
  | audio now dur =>
    simp only [nonnegAudio, decide_eq_true_eq] at he
    by_cases h : st.ctxReady
    · simp only [stepEv, onAudio, h, if_true]
      have := le_max_left st.nextStartTime now
      linarith
    · simp [stepEv, onAudio, h]
  | intr => simp [nonnegAudio] at he

theorem foldl_stepEv_mono (es : List SchedEv) : ∀ st : CoachState,
    (es.all nonnegAudio) = true →
      st.nextStartTime ≤ (es.foldl stepEv st).nextStartTime := by
  induction es with
  | nil => intro st _; exact le_refl _
  | cons e es ih =>
    intro st hall
    rw [List.all_cons, Bool.and_eq_true] at hall
    exact le_trans (stepEv_mono st e hall.1) (ih (stepEv st e) hall.2)

/-- C2: with the output context ready, `onAudio` starts the chunk exactly
at `max(cursor, clock.now())` and advances the cursor by the chunk
duration; a second chunk scheduled consecutively (arriving before the
cursor goes stale, with no interruption in between) starts exactly at the
first chunk's start time plus its duration, the two never overlap, and
two consecutive chunks of duration 1/2 s advance the cursor by exactly
1 s from the scheduling baseline. -/
theorem schedule_consecutive (st : CoachState) (now1 dur1 now2 dur2 : ℚ)
    (hctx : st.ctxReady = true) (hd1 : 0 ≤ dur1) (hd2 : 0 ≤ dur2)
    (hfresh : now2 ≤ (onAudio now1 dur1 st).1.nextStartTime) :
    (onAudio now1 dur1 st).2 = some (max st.nextStartTime now1) ∧
      (onAudio now1 dur1 st).1.nextStartTime = max st.nextStartTime now1 + dur1 ∧
      (onAudio now2 dur2 (onAudio now1 dur1 st).1).2 =
        some (max st.nextStartTime now1 + dur1) ∧
      (∀ t : ℚ, max st.nextStartTime now1 ≤ t → t < max st.nextStartTime now1 + dur1 →
        ¬ (max st.nextStartTime now1 + dur1 ≤ t ∧
            t < max st.nextStartTime now1 + dur1 + dur2)) ∧
      (dur1 = 1 / 2 → dur2 = 1 / 2 →
        (onAudio now2 dur2 (onAudio now1 dur1 st).1).1.nextStartTime =
          max st.nextStartTime now1 + 1) := by
  have hstep : (onAudio now1 dur1 st).1.nextStartTime = max st.nextStartTime now1 + dur1 := by
    simp [onAudio, hctx]
  have hctx2 : (onAudio now1 dur1 st).1.ctxReady = true := by
    simp [onAudio, hctx]
  have hfresh' : now2 ≤ max st.nextStartTime now1 + dur1 := by rwa [hstep] at hfresh
  have hr1 : (onAudio now1 dur1 st).1 =
      { st with
          nextStartTime := max st.nextStartTime now1 + dur1,
          activeSources := st.activeSources ++ [⟨st.nextId, false⟩],
          nextId := st.nextId + 1 } := by
    simp [onAudio, hctx]
  refine ⟨by simp [onAudio, hctx], hstep, ?_, ?_, ?_⟩
  · have h2 : (onAudio now2 dur2 (onAudio now1 dur1 st).1).2 =
        some (max (max st.nextStartTime now1 + dur1) now2) := by
      rw [hr1]
      simp [onAudio, hctx]
    rw [h2, max_eq_left hfresh']
  · intro t ht1 ht2 hbad
    linarith [hbad.1]
  · intro e1 e2
    have h5 : (onAudio now2 dur2 (onAudio now1 dur1 st).1).1.nextStartTime =
        max (max st.nextStartTime now1 + dur1) now2 + dur2 := by
      rw [hr1]
      simp [onAudio, hctx]
    rw [h5, max_eq_left hfresh', e1, e2]
    ring

/-- Witness for C2 at a concrete fresh state and two 1/2 s chunks: the
cursor ends exactly 1 s past the scheduling baseline. -/
theorem schedule_consecutive_witness :
    (onAudio (1 / 4) (1 / 2) (onAudio 0 (1 / 2) ⟨0, [], 0, true, true⟩).1).1.nextStartTime =
      max (0 : ℚ) 0 + 1 :=
  (schedule_consecutive ⟨0, [], 0, true, true⟩ 0 (1 / 2) (1 / 4) (1 / 2) rfl
    (by norm_num) (by norm_num) (by simp [onAudio]; norm_num)).2.2.2.2 rfl rfl

/-- C3: `onInterrupted` stops every source in the active set (all
returned sources are stopped, one per active source, same ids in order),
clears the set and zeroes the cursor; with an empty active set it stops
nothing and its only effect is the cursor reset — it is a total function,
so no error is raised. -/
theorem interrupt_spec (st : CoachState) :
    (onInterrupted st).1.nextStartTime = 0 ∧
      (onInterrupted st).1.activeSources = [] ∧
      ((onInterrupted st).2.all fun s => s.stopped) = true ∧
      (onInterrupted st).2.length = st.activeSources.length ∧
      (onInterrupted st).2.map Source.id = st.activeSources.map Source.id ∧
      (st.activeSources = [] →
        (onInterrupted st).2 = [] ∧
          (onInterrupted st).1 = { st with nextStartTime := 0 }) := by
  refine ⟨rfl, rfl, ?_, by simp [onInterrupted], ?_, ?_⟩
  · simp [onInterrupted, List.all_eq_true]
  · simp [onInterrupted]
  · intro h
    refine ⟨by simp [onInterrupted, h], ?_⟩
    cases st with
    | mk nst src nid ctx sess =>
      simp only at h
      subst h
      rfl

/-- Witness for C3 at a concrete state with an empty active set. -/
theorem interrupt_spec_witness :
    (onInterrupted ⟨5, [], 3, true, true⟩).2 = [] ∧
      (onInterrupted ⟨5, [], 3, true, true⟩).1 =
        { (⟨5, [], 3, true, true⟩ : CoachState) with nextStartTime := 0 } :=
  (interrupt_spec ⟨5, [], 3, true, true⟩).2.2.2.2.2 rfl

/-- C6: the playback cursor never decreases across inbound audio events
(with nonnegative durations, context ready or not), the only reset is the
interruption handler (which zeroes it), and immediately after a scheduled
chunk the cursor is at least the clock time read by that `onAudio` call. -/
theorem cursor_invariant (st : CoachState) (now dur : ℚ) (hctx : st.ctxReady = true)
    (hd : 0 ≤ dur) (es : List SchedEv) (hes : (es.all nonnegAudio) = true) :
    st.nextStartTime ≤ (es.foldl stepEv st).nextStartTime ∧
      now ≤ (onAudio now dur st).1.nextStartTime ∧
      (onInterrupted st).1.nextStartTime = 0 := by
  refine ⟨foldl_stepEv_mono es st hes, ?_, rfl⟩
  simp only [onAudio, hctx, if_true]
  have := le_max_right st.nextStartTime now
  linarith

/-- Witness for C6 at a concrete state and a two-chunk event trace. -/
theorem cursor_invariant_witness :
    ((⟨0, [], 0, true, true⟩ : CoachState)).nextStartTime ≤
        ([SchedEv.audio 0 (1 / 2), SchedEv.audio (1 / 4) (1 / 2)].foldl stepEv
          ⟨0, [], 0, true, true⟩).nextStartTime ∧
      (1 / 4 : ℚ) ≤ (onAudio (1 / 4) (1 / 3) ⟨0, [], 0, true, true⟩).1.nextStartTime ∧
      (onInterrupted ⟨0, [], 0, true, true⟩).1.nextStartTime = 0 :=
  cursor_invariant ⟨0, [], 0, true, true⟩ (1 / 4) (1 / 3) rfl (by norm_num)
    [SchedEv.audio 0 (1 / 2), SchedEv.audio (1 / 4) (1 / 2)]
    (by simp [nonnegAudio])

/-- C10: `stopCoach` stops every active source (all returned sources are
stopped, one per active source), clears the active set and closes the
session handle, but leaves the playback cursor unchanged; the cursor is
zeroed only by the interruption handler. -/
theorem stopCoach_spec (st : CoachState) :
    (stopCoach st).1.activeSources = [] ∧
      (stopCoach st).1.sessionOpen = false ∧
      ((stopCoach st).2.all fun s => s.stopped) = true ∧
      (stopCoach st).2.length = st.activeSources.length ∧
      (stopCoach st).1.nextStartTime = st.nextStartTime ∧
      (onInterrupted st).1.nextStartTime = 0 := by
  refine ⟨rfl, rfl, ?_, by simp [stopCoach], rfl, rfl⟩
  simp [stopCoach, List.all_eq_true]

/-! ## Remote-generation fallbacks (geminiService.ts)

`getSuggestions` computes `JSON.parse(response.text || '...dishes...').dishes`,
`getFullRecipe` computes `JSON.parse(response.text || '...')` with an empty
object literal, and `generateDishImage` scans the response parts for the
first `inlineData` and otherwise returns a fixed placeholder URL.  The
response text is modelled as `Option (List Char)` (`none` for an absent
`response.text`; the JavaScript `||` also replaces the empty string).
`JSON.parse` is modelled by a small recursive-descent JSON parser over the
value grammar the service uses (null, booleans, integers, strings without
escapes, arrays, objects); parse failure — `JSON.parse` throwing — is
`none`. -/

/-- A parsed JSON value. -/
inductive Json where
  | null
  | bool (b : Bool)
  | num (n : Int)
  | str (s : List Char)
  | arr (xs : List Json)
  | obj (fields : List (List Char × Json))

/-- Opening brace character. -/
def lbrace : Char := Char.ofNat 123

/-- Closing brace character. -/
def rbrace : Char := Char.ofNat 125

/-- Skip JSON whitespace. -/
def skipWs : List Char → List Char
  | [] => []
  | c :: cs => if c = ' ' || c = '\n' || c = '\t' || c = '\r' then skipWs cs else c :: cs

/-- Body of a string literal after the opening quote (no escapes). -/
def parseStrBody : List Char → Option (List Char × List Char)
  | [] => none
  | c :: cs =>
    if c = '"' then some ([], cs)
    else (parseStrBody cs).map (fun r => (c :: r.1, r.2))

/-- Leading run of digits as a number. -/
def parseNatAux : List Char → Nat → Nat × List Char
  | [], acc => (acc, [])
  | c :: cs, acc =>
    if c.isDigit then parseNatAux cs (acc * 10 + (c.toNat - 48)) else (acc, c :: cs)

/-- A natural-number literal. -/
def parseNat (s : List Char) : Option (Nat × List Char) :=
  match s with
  | c :: _ => if c.isDigit then some (parseNatAux s 0) else none
  | [] => none

mutual

/-- One JSON value (fuel-bounded recursive descent). -/
def parseVal : Nat → List Char → Option (Json × List Char)
  | 0, _ => none
  | fuel + 1, input =>
    match skipWs input with
    | [] => none
    | c :: cs =>
      if c = '"' then (parseStrBody cs).map (fun r => (Json.str r.1, r.2))
      else if c = '[' then
        match skipWs cs with
        | ']' :: rest => some (Json.arr [], rest)
        | rest => (parseArrItems fuel rest).map (fun r => (Json.arr r.1, r.2))
      else if c = lbrace then
        match skipWs cs with
        | d :: ds =>
          if d = rbrace then some (Json.obj [], ds)
          else (parseObjItems fuel (d :: ds)).map (fun r => (Json.obj r.1, r.2))
        | [] => none
      else if c = 'n' then
        match cs with
        | 'u' :: 'l' :: 'l' :: rest => some (Json.null, rest)
        | _ => none
      else if c = 't' then
        match cs with
        | 'r' :: 'u' :: 'e' :: rest => some (Json.bool true, rest)
        | _ => none
      else if c = 'f' then
        match cs with
        | 'a' :: 'l' :: 's' :: 'e' :: rest => some (Json.bool false, rest)
        | _ => none
      else if c = '-' then
        match parseNat cs with
        | some (n, rest) => some (Json.num (-(n : Int)), rest)
        | none => none
      else
        match parseNat (c :: cs) with
        | some (n, rest) => some (Json.num (n : Int), rest)
        | none => none

/-- Comma-separated array items up to the closing bracket. -/
def parseArrItems : Nat → List Char → Option (List Json × List Char)
  | 0, _ => none
  | fuel + 1, input =>
    match parseVal fuel input with
    | none => none
    | some (v, rest) =>
      match skipWs rest with
      | c :: cs =>
        if c = ',' then (parseArrItems fuel cs).map (fun r => (v :: r.1, r.2))
        else if c = ']' then some ([v], cs)
        else none
      | [] => none

/-- Comma-separated object fields up to the closing brace. -/
def parseObjItems : Nat → List Char → Option (List (List Char × Json) × List Char)
  | 0, _ => none
  | fuel + 1, input =>
    match skipWs input with
    | c :: cs =>
      if c = '"' then
        match parseStrBody cs with
        | none => none
        | some (key, rest1) =>
          match skipWs rest1 with
          | ':' :: rest2 =>
            match parseVal fuel rest2 with
            | none => none
            | some (v, rest3) =>
              match skipWs rest3 with
              | d :: ds =>
                if d = ',' then (parseObjItems fuel ds).map (fun r => ((key, v) :: r.1, r.2))
                else if d = rbrace then some ([(key, v)], ds)
                else none
              | [] => none
          | _ => none
      else none
    | [] => none

end

/-- `JSON.parse`: parse a complete JSON document (trailing garbage fails). -/
def parseJson (s : List Char) : Option Json :=
  match parseVal (s.length + 1) s with
  | some (v, rest) => if skipWs rest = [] then some v else none
  | none => none

/-- The JavaScript `text || fallback` for an optional response text (the
empty string is falsy). -/
def orFallback (responseText : Option (List Char)) (fb : List Char) : List Char :=
  match responseText with
  | some s => if s = [] then fb else s
  | none => fb

/-- Property access on a parsed object: first field with the given key. -/
def lookupField : List (List Char × Json) → List Char → Option Json
  | [], _ => none
  | (k, v) :: rest, key => if k = key then some v else lookupField rest key

/-- The fallback literal of `getSuggestions`: an object whose `dishes`
field is an empty array. -/
def dishesFallback : List Char := "\x7b\"dishes\":[]\x7d".toList

/-- The fallback literal of `getFullRecipe`: an empty object. -/
def recipeFallback : List Char := "\x7b\x7d".toList

/-- Result handling of `getSuggestions`:
`JSON.parse(response.text || fallback).dishes`. -/
def getSuggestions (responseText : Option (List Char)) : Option (List Json) :=
  match parseJson (orFallback responseText dishesFallback) with
  | some (Json.obj fields) =>
    match lookupField fields ("dishes".toList) with
    | some (Json.arr xs) => some xs
    | _ => none
  | _ => none

/-- Result handling of `getFullRecipe`: `JSON.parse(response.text || fallback)`. -/
def getFullRecipe (responseText : Option (List Char)) : Option Json :=
  parseJson (orFallback responseText recipeFallback)

/-- One part of an image-generation response. -/
structure GenPart where
  text : Option (List Char)
  inlineData : Option (List Char)

/-- The placeholder image URL returned when no part carries image data. -/
def placeholderUrl : List Char :=
  "https://images.unsplash.com/photo-1546069901-ba9599a7e63c?w=1200&q=80".toList

/-- Result handling of `generateDishImage`: first part with `inlineData`,
else the placeholder URL. -/
def generateDishImage (parts : List GenPart) : List Char :=
  match parts.findSome? (fun p => p.inlineData) with
  | some d => "data:image/png;base64,".toList ++ d
  | none => placeholderUrl

theorem findSome?_inline_none : ∀ parts : List GenPart,
    (parts.all fun p => p.inlineData.isNone) = true →
      parts.findSome? (fun p => p.inlineData) = none := by
  intro parts
  induction parts with
  | nil => intro _; rfl
  | cons p ps ih =>
    intro hall
    rw [List.all_cons, Bool.and_eq_true] at hall
    rw [List.findSome?_cons, Option.isNone_iff_eq_none.mp hall.1]
    exact ih hall.2

/-- C9: an absent (or empty) structured-text response makes
`getSuggestions` return the empty dish collection and `getFullRecipe`
return its defined fallback value (the empty object), and an image
response none of whose parts carries `inlineData` makes
`generateDishImage` return the defined placeholder URL — a safe default
is substituted instead of propagating an error in each case. -/
theorem empty_result_defaults :
    getSuggestions none = some [] ∧
      getSuggestions (some []) = some [] ∧
      getFullRecipe none = some (Json.obj []) ∧
      getFullRecipe (some []) = some (Json.obj []) ∧
      (∀ parts : List GenPart, (parts.all fun p => p.inlineData.isNone) = true →
        generateDishImage parts = placeholderUrl) := by
  refine ⟨rfl, rfl, rfl, rfl, ?_⟩
  intro parts hall
  rw [generateDishImage, findSome?_inline_none parts hall]

/-- Witness for C9 at a concrete text-only image response. -/
theorem empty_result_defaults_witness :
    generateDishImage [⟨some ("text only".toList), none⟩] = placeholderUrl :=
  empty_result_defaults.2.2.2.2 [⟨some ("text only".toList), none⟩] rfl
